import Mathlib

set_option maxRecDepth 4000

/-!  Verification of the crash-report extraction engine of `pkg/report/report.go`.

Bytes are modelled as `List Nat` ('\n' = 10, '\r' = 13); Go strings are byte
lists as well, so `string(b)` is the identity.  The external regexp library is
modelled by a structure holding the two operations the code uses on compiled
patterns: `Match` (a boolean test, used for suppressions and ignores) and
`FindSubmatchIndex` (leftmost match with capture-group bounds, used for format
titles).  Capture groups are modelled as participating (`Nat` bounds), per the
registry invariant that a format's template argument count equals its
pattern's capture count.  `fmt.Sprintf` is modelled for the `%v`/`%s` verbs
with positionally matching arguments, which is how the engine invokes it.
A Go `panic` is modelled by returning `none`. -/

/-- Result of `Regexp.FindSubmatchIndex`: `s`/`e` are `match[0]`/`match[1]`
(whole-match bounds) and `groups` lists the capture-group bounds
`(match[2i], match[2i+1])`. -/
structure ReMatch where
  s : Nat
  e : Nat
  groups : List (Nat × Nat)
deriving DecidableEq

/-- Model of a compiled Go regexp via the two operations `report.go` uses:
`Match` (for suppressions/ignores) and `FindSubmatchIndex` (for titles). -/
structure Regexp where
  rmatch : List Nat → Bool
  findSubmatchIdx : List Nat → Option ReMatch

/-- `oopsFormat` of report.go: one title-extraction rule within a signature. -/
structure oopsFormat where
  title : Regexp
  report : Option Regexp
  fmt : List Nat
  noStackTrace : Bool
  corrupted : Bool

/-- `oops` of report.go: one crash-signature family. -/
structure oops where
  header : List Nat
  formats : List oopsFormat
  suppressions : List Regexp

/-- Go `bytes.Index`: first offset at which `needle` occurs in `hay`
(`none` for Go's `-1`).  `bytes.Index(hay, [])` is `0`. -/
def bytesIndexN (hay needle : List Nat) : Option Nat :=
  (List.range (hay.length + 1)).find? (fun i => needle.isPrefixOf (hay.drop i))

/-- Go slice expression `xs[a:b]`. -/
def goSlice (xs : List Nat) (a b : Nat) : List Nat :=
  (xs.drop a).take (b - a)

/-- `matchOops` of report.go: offset of the header in the line, unless a
suppression or an ignore pattern matches the line.  Go's `-1` is kept as an
`Int` so the code's `match == -1` tests translate directly. -/
def matchOops (line : List Nat) (o : oops) (ignores : List Regexp) : Int :=
  match bytesIndexN line o.header with
  | none => -1
  | some m =>
    if o.suppressions.any (fun supp => supp.rmatch line) then -1
    else if ignores.any (fun ignore => ignore.rmatch line) then -1
    else (m : Int)

/-- The current line of the scan loop of `containsCrash`:
`output[pos:next]` where `next` is the next `'\n'` (or the end of buffer). -/
def lineOf (l : List Nat) : List Nat :=
  l.takeWhile (fun x => x != 10)

/-- The remainder of the scan loop of `containsCrash`: `output[next+1:]`. -/
def restOf (l : List Nat) : List Nat :=
  l.drop ((l.takeWhile (fun x => x != 10)).length + 1)

/-- The lines scanned by the loop of `containsCrash`: segments delimited by
`'\n'`, with a final partial line included (a trailing `'\n'` does not
produce an empty final line, matching the `pos = next + 1` loop). -/
def goLines : List Nat → List (List Nat)
  | [] => []
  | b :: rest => lineOf (b :: rest) :: goLines (restOf (b :: rest))
termination_by l => l.length
decreasing_by
  simp only [restOf, List.length_drop, List.length_cons]
  omega

/-- `containsCrash` of report.go: scan line by line; on each line try every
signature with `matchOops`; return true on the first accepted match. -/
def containsCrash : List Nat → List oops → List Regexp → Bool
  | [], _, _ => false
  | b :: rest, oopses, ignores =>
    if oopses.any (fun o => matchOops (lineOf (b :: rest)) o ignores != -1) then true
    else containsCrash (restOf (b :: rest)) oopses ignores
termination_by l _ _ => l.length
decreasing_by
  simp only [restOf, List.length_drop, List.length_cons]
  omega

/-- Go `fmt.Sprintf` for the `%v`/`%s` verbs with positionally matching
string arguments (byte 37 = '%', 118 = 'v', 115 = 's'). -/
def sprintf : List Nat → List (List Nat) → List Nat
  | 37 :: 118 :: rest, a :: as => a ++ sprintf rest as
  | 37 :: 115 :: rest, a :: as => a ++ sprintf rest as
  | c :: rest, as => c :: sprintf rest as
  | [], _ => []

/-- The argument list built by the `for i := 2; i < len(match); i += 2` loop
of `extractDescription`: each capture group as its matched substring. -/
def renderArgs (output : List Nat) (groups : List (Nat × Nat)) : List (List Nat) :=
  groups.map (fun p => goSlice output p.1 p.2)

/-- State of the format-selection loop of `extractDescription`
(`startPos`, `desc`, `report`, `format`); the Go zero value of `oopsFormat`
is modelled as `none`. -/
structure EDState where
  startPos : Int
  desc : List Nat
  report : List Nat
  format : Option oopsFormat

/-- Initial state of the format-selection loop: `startPos := -1`. -/
def edInit : EDState :=
  ⟨-1, [], [], none⟩

/-- One iteration of the format-selection loop of `extractDescription`:
skip non-matching formats; skip a match unless it starts strictly before the
current winner (`startPos != -1 && startPos <= match[0]` continues). -/
def edStep (output : List Nat) (st : EDState) (f : oopsFormat) : EDState :=
  match f.title.findSubmatchIdx output with
  | none => st
  | some m =>
    if st.startPos ≠ -1 ∧ st.startPos ≤ (m.s : Int) then st
    else ⟨(m.s : Int), sprintf f.fmt (renderArgs output m.groups), output.drop m.s, some f⟩

/-- The format-selection loop of `extractDescription` over the format list. -/
def edLoop (output : List Nat) : EDState → List oopsFormat → EDState
  | st, [] => st
  | st, f :: fs => edLoop output (edStep output st f) fs

/-- The line-end computation of the fallback path of `extractDescription`:
`bytes.IndexByte(output[pos:], '\n')`, or the end of buffer. -/
def lineEnd (output : List Nat) (pos : Nat) : Nat :=
  match (output.drop pos).findIdx? (fun x => x == 10) with
  | none => output.length
  | some e => e + pos

/-- `extractDescription` before its unconditional post-processing: the format
loop, then the header-line fallback when `len(desc) == 0`; `none` models the
`panic("non matching oops")`. -/
def rawDesc (output : List Nat) (o : oops) : Option (List Nat × List Nat × Option oopsFormat) :=
  let st := edLoop output edInit o.formats
  if st.desc = [] then
    match bytesIndexN output o.header with
    | none => none
    | some pos => some (goSlice output pos (lineEnd output pos), output.drop pos, st.format)
  else some (st.desc, st.report, st.format)

/-- The trailing-carriage-return strip of `extractDescription`
(`if len(desc) > 0 && desc[len(desc)-1] == '\r'`). -/
def crStrip (d : List Nat) : List Nat :=
  if d ≠ [] ∧ d.getLast? = some 13 then d.dropLast else d

/-- The `maxDescLen = 180` truncation of `extractDescription`. -/
def truncate180 (d : List Nat) : List Nat :=
  if 180 < d.length then d.take 180 else d

/-- The unconditional post-processing of `extractDescription`: CR strip, then
truncation to 180 bytes. -/
def postTitle (d : List Nat) : List Nat :=
  truncate180 (crStrip d)

/-- `extractDescription` of report.go, returning `(desc, report, format)`;
`none` models the `panic` of the fallback path. -/
def extractDescription (output : List Nat) (o : oops) : Option (List Nat × List Nat × Option oopsFormat) :=
  match rawDesc output o with
  | none => none
  | some (d, r, f) => some (postTitle d, r, f)

/-- Go `copy(dst[a:], src)`: overwrite `min (len dst - a) (len src)` bytes of
`dst` starting at `a` with the front of `src` (memmove semantics; the list
model reads `src` before any write, which is exactly what memmove gives). -/
def goCopy (dst : List Nat) (a : Nat) (src : List Nat) : List Nat :=
  dst.take a ++ src.take (min (dst.length - a) src.length) ++
    dst.drop (a + min (dst.length - a) src.length)

/-- `replace` of report.go: replace `where[start:endp]` with `what` in place,
growing via `append` or shrinking via reslicing. -/
def replace (whereB : List Nat) (start endp : Nat) (what : List Nat) : List Nat :=
  if what.length ≥ endp - start then
    let w1 := whereB ++ what.drop (endp - start)
    let w2 := goCopy w1 (start + what.length) (w1.drop endp)
    goCopy w2 start what
  else
    let w1 := goCopy whereB (start + what.length) (whereB.drop endp)
    let w2 := w1.take (whereB.length - (endp - start - what.length))
    goCopy w2 start what

/-- The keys of the `ctors` map of `NewReporter`. -/
def knownOS : List String :=
  ["akaros", "linux", "freebsd", "netbsd", "fuchsia", "windows"]

/-- `NewReporter` of report.go, generic over the reporter type `R`, the symbol
table type `S` and the ignore-list type `I`; the six per-OS constructors are
external collaborators and are passed in.  A Go `(Reporter, error)` pair is
`Option R × Option String`; a missing map key yields a nil constructor and
the `unknown os` error. -/
def NewReporter {R S I : Type}
    (ctorAkaros ctorLinux ctorFreebsd ctorNetbsd ctorFuchsia ctorWindows :
      String → String → S → I → Option R × Option String)
    (os kernelSrc kernelObj : String) (symbols : S) (ignores : I) :
    Option R × Option String :=
  let ctors : List (String × (String → String → S → I → Option R × Option String)) :=
    [("akaros", ctorAkaros), ("linux", ctorLinux), ("freebsd", ctorFreebsd),
     ("netbsd", ctorNetbsd), ("fuchsia", ctorFuchsia), ("windows", ctorWindows)]
  match ctors.lookup os with
  | none => (none, some ("unknown os: " ++ os))
  | some ctor =>
    let kernelObj := if kernelObj = "" then kernelSrc else kernelObj
    ctor kernelSrc kernelObj symbols ignores

/-- A concrete regexp instance matching a literal byte sequence, coherent
with the Go semantics of `Match` and `FindSubmatchIndex` (leftmost match,
no capture groups); used for concrete examples. -/
def litRe (pat : List Nat) : Regexp :=
  ⟨fun l => (bytesIndexN l pat).isSome,
   fun l =>
     match bytesIndexN l pat with
     | none => none
     | some i => some ⟨i, i + pat.length, []⟩⟩

/-! ## Correctness of `replace` -/

/-- A `copy` whose source fits inside the destination from `a` on overwrites
exactly `src.length` bytes. -/
lemma goCopy_src_fits (dst : List Nat) (a : Nat) (src : List Nat)
    (h : a + src.length ≤ dst.length) :
    goCopy dst a src = dst.take a ++ src ++ dst.drop (a + src.length) := by
  unfold goCopy
  have hm : min (dst.length - a) src.length = src.length := by omega
  rw [hm, List.take_length]

/-- A `copy` whose source reaches (or passes) the end of the destination
overwrites everything from `a` on. -/
lemma goCopy_src_covers (dst : List Nat) (a : Nat) (src : List Nat)
    (h : dst.length ≤ a + src.length) :
    goCopy dst a src = dst.take a ++ src.take (dst.length - a) := by
  unfold goCopy
  have hm : min (dst.length - a) src.length = dst.length - a := by omega
  rw [hm]
  have ha : a + (dst.length - a) = max a dst.length := by omega
  rw [ha]
  rw [List.drop_eq_nil_of_le (by omega), List.append_nil]

/-- Copying `what` into `X ++ Y` where `X` ends exactly where `what` ends. -/
lemma goCopy_overwrite_front (X Y what : List Nat) (s : Nat)
    (hXlen : X.length = s + what.length) :
    goCopy (X ++ Y) s what = X.take s ++ what ++ Y := by
  rw [goCopy_src_fits (X ++ Y) s what (by simp [List.length_append]; omega)]
  rw [List.take_append_eq_append_take]
  have h0 : s - X.length = 0 := by omega
  rw [h0, List.take_zero, List.append_nil]
  rw [← hXlen, List.drop_left]

/-- `replace` computes take/replacement/drop, growing branch. -/
lemma replace_eq_grow (B : List Nat) (s e : Nat) (what : List Nat)
    (h1 : s ≤ e) (h2 : e ≤ B.length) (hk : e - s ≤ what.length) :
    replace B s e what = B.take s ++ what ++ B.drop e := by
  have hcond : what.length ≥ e - s := hk
  simp only [replace]
  rw [if_pos hcond]
  have hde : (B ++ what.drop (e - s)).drop e = B.drop e ++ what.drop (e - s) := by
    rw [List.drop_append_eq_append_drop]
    have h0 : e - B.length = 0 := by omega
    rw [h0, List.drop_zero]
  rw [hde]
  rw [goCopy_src_covers (B ++ what.drop (e - s)) (s + what.length)
    (B.drop e ++ what.drop (e - s)) (by simp [List.length_append, List.length_drop]; omega)]
  have hw1 : (B ++ what.drop (e - s)).length - (s + what.length) = B.length - e := by
    simp [List.length_append, List.length_drop]; omega
  rw [hw1]
  have hYlen : (B.drop e).length = B.length - e := by simp [List.length_drop]
  have htk : (B.drop e ++ what.drop (e - s)).take (B.length - e) = B.drop e := by
    rw [List.take_append_eq_append_take, hYlen, Nat.sub_self, List.take_zero,
      List.append_nil, ← hYlen, List.take_length]
  rw [htk]
  rw [goCopy_overwrite_front ((B ++ what.drop (e - s)).take (s + what.length)) (B.drop e)
    what s (by simp only [List.length_take, List.length_append, List.length_drop]; omega)]
  have hts : ((B ++ what.drop (e - s)).take (s + what.length)).take s = B.take s := by
    rw [List.take_take]
    have hmin : min s (s + what.length) = s := by omega
    rw [hmin, List.take_append_eq_append_take]
    have h0 : s - B.length = 0 := by omega
    rw [h0, List.take_zero, List.append_nil]
  rw [hts]

lemma replace_eq_shrink (B : List Nat) (s e : Nat) (what : List Nat)
    (h1 : s ≤ e) (h2 : e ≤ B.length) (hk : what.length < e - s) :
    replace B s e what = B.take s ++ what ++ B.drop e := by
  simp only [replace]
  rw [if_neg (by omega)]
  rw [goCopy_src_fits B (s + what.length) (B.drop e) (by simp [List.length_drop]; omega)]
  have hYlen : (B.drop e).length = B.length - e := by simp [List.length_drop]
  rw [hYlen]
  have hN : B.length - (e - s - what.length) = (s + what.length) + (B.length - e) := by
    omega
  rw [hN]
  have hXYlen : (B.take (s + what.length) ++ B.drop e).length =
      (s + what.length) + (B.length - e) := by
    simp only [List.length_append, List.length_take, List.length_drop]
    omega
  rw [List.take_append_eq_append_take, List.take_of_length_le (le_of_eq hXYlen), hXYlen,
    Nat.sub_self, List.take_zero, List.append_nil]
  rw [goCopy_overwrite_front (B.take (s + what.length)) (B.drop e) what s
    (by simp only [List.length_take]; omega)]
  have hts : (B.take (s + what.length)).take s = B.take s := by
    rw [List.take_take]
    have hmin : min s (s + what.length) = s := by omega
    rw [hmin]
  rw [hts]

lemma replace_eq (B : List Nat) (s e : Nat) (what : List Nat)
    (h1 : s ≤ e) (h2 : e ≤ B.length) :
    replace B s e what = B.take s ++ what ++ B.drop e := by
  rcases Nat.lt_or_ge what.length (e - s) with h | h
  · exact replace_eq_shrink B s e what h1 h2 h
  · exact replace_eq_grow B s e what h1 h2 h

/-- C4: for every buffer, every in-bounds range `[s, e)` and every replacement
(shorter, equal or longer than the range), `replace` keeps the first `s`
bytes, keeps the bytes from `s + len(replacement)` on equal to `buf[e:]`
(unchanged and contiguous), and the result length is
`len(buf) - (e - s) + len(replacement)`. -/
theorem replace_preserves_outside (buf : List Nat) (s e : Nat) (what : List Nat)
    (h1 : s ≤ e) (h2 : e ≤ buf.length) :
    (replace buf s e what).take s = buf.take s ∧
    (replace buf s e what).drop (s + what.length) = buf.drop e ∧
    (replace buf s e what).length = buf.length - (e - s) + what.length := by
  rw [replace_eq buf s e what h1 h2]
  have hl : (buf.take s).length = s := by rw [List.length_take]; omega
  have hl2 : (buf.take s ++ what).length = s + what.length := by
    simp [List.length_append, hl]
  refine ⟨?_, ?_, ?_⟩
  · rw [List.take_append_eq_append_take, hl2]
    have h0 : s - (s + what.length) = 0 := by omega
    rw [h0, List.take_zero, List.append_nil, List.take_append_eq_append_take, hl,
      Nat.sub_self, List.take_zero, List.append_nil, List.take_take, min_self]
  · rw [List.drop_append_eq_append_drop, hl2, Nat.sub_self, List.drop_zero,
      List.drop_eq_nil_of_le (le_of_eq hl2), List.nil_append]
  · simp only [List.length_append, List.length_take, List.length_drop]
    omega

/-- Witness for C4 at `buf = [1,2,3,4,5]`, range `[1,3)`, replacement of
length 3. -/
theorem replace_preserves_outside_witness :
    (replace [1, 2, 3, 4, 5] 1 3 [9, 9, 9]).take 1 = ([1, 2, 3, 4, 5] : List Nat).take 1 ∧
    (replace [1, 2, 3, 4, 5] 1 3 [9, 9, 9]).drop 4 = ([1, 2, 3, 4, 5] : List Nat).drop 3 ∧
    (replace [1, 2, 3, 4, 5] 1 3 [9, 9, 9]).length = 5 - (3 - 1) + 3 :=
  replace_preserves_outside [1, 2, 3, 4, 5] 1 3 [9, 9, 9] (by decide) (by decide)

/-- C5: replacing an in-bounds range with its own contents
(`replace(buf, s, e, buf[s:e])`) returns the buffer unchanged. -/
theorem replace_self_eq (buf : List Nat) (s e : Nat)
    (h1 : s ≤ e) (h2 : e ≤ buf.length) :
    replace buf s e (goSlice buf s e) = buf := by
  rw [replace_eq buf s e (goSlice buf s e) h1 h2]
  unfold goSlice
  have he : buf.drop e = (buf.drop s).drop (e - s) := by
    rw [List.drop_drop]
    congr 1
    omega
  rw [he, List.append_assoc, List.take_append_drop, List.take_append_drop]

/-- Witness for C5 at `buf = [1,2,3,4]`, range `[1,3)`. -/
theorem replace_self_eq_witness :
    replace [1, 2, 3, 4] 1 3 (goSlice [1, 2, 3, 4] 1 3) = [1, 2, 3, 4] :=
  replace_self_eq [1, 2, 3, 4] 1 3 (by decide) (by decide)

/-! ## `NewReporter` on an unknown OS -/

/-- C8: for every `os` string outside the six supported identifiers,
`NewReporter` returns a nil reporter and the `unknown os` error, for all
per-OS constructors and all other arguments — in particular the result does
not depend on any constructor, so none is invoked. -/
theorem NewReporter_unknown_os {R S I : Type}
    (cA cL cF cN cFu cW : String → String → S → I → Option R × Option String)
    (os kernelSrc kernelObj : String) (symbols : S) (ignores : I)
    (h : os ∉ knownOS) :
    NewReporter cA cL cF cN cFu cW os kernelSrc kernelObj symbols ignores =
      (none, some ("unknown os: " ++ os)) := by
  simp only [knownOS, List.mem_cons, List.not_mem_nil, or_false, not_or] at h
  obtain ⟨h1, h2, h3, h4, h5, h6⟩ := h
  simp only [NewReporter, List.lookup]
  have b1 : (os == "akaros") = false := by simp [h1]
  have b2 : (os == "linux") = false := by simp [h2]
  have b3 : (os == "freebsd") = false := by simp [h3]
  have b4 : (os == "netbsd") = false := by simp [h4]
  have b5 : (os == "fuchsia") = false := by simp [h5]
  have b6 : (os == "windows") = false := by simp [h6]
  rw [b1, b2, b3, b4, b5, b6]

/-- Witness for C8 at `os = "plan9"` with constant constructors. -/
theorem NewReporter_unknown_os_witness :
    NewReporter (R := Unit) (S := Unit) (I := Unit)
      (fun _ _ _ _ => (none, none)) (fun _ _ _ _ => (none, none))
      (fun _ _ _ _ => (none, none)) (fun _ _ _ _ => (none, none))
      (fun _ _ _ _ => (none, none)) (fun _ _ _ _ => (none, none))
      "plan9" "src" "obj" () () = (none, some ("unknown os: " ++ "plan9")) :=
  NewReporter_unknown_os _ _ _ _ _ _ "plan9" "src" "obj" () () (by decide)

/-! ## Characterisation of `matchOops` and `containsCrash` -/

/-- `List.isPrefixOf` is the existence of a completing suffix. -/
lemma isPrefixOf_iff_append (a : List Nat) : ∀ l : List Nat, a.isPrefixOf l = true ↔ ∃ t, a ++ t = l := by
  induction a with
  | nil => intro l; simp [List.isPrefixOf]
  | cons x xs ih =>
    intro l
    cases l with
    | nil => simp [List.isPrefixOf]
    | cons y ys =>
      simp only [List.isPrefixOf, Bool.and_eq_true, beq_iff_eq, ih, List.cons_append,
        List.cons.injEq]
      constructor
      · rintro ⟨hxy, t, ht⟩
        exact ⟨t, hxy, ht⟩
      · rintro ⟨t, hxy, ht⟩
        exact ⟨hxy, t, ht⟩

/-- `bytes.Index` succeeds exactly when the needle occurs contiguously. -/
lemma bytesIndexN_isSome_iff (hay nd : List Nat) :
    (bytesIndexN hay nd).isSome = true ↔ ∃ u v, u ++ nd ++ v = hay := by
  unfold bytesIndexN
  rw [List.find?_isSome]
  constructor
  · rintro ⟨i, -, hp⟩
    rw [isPrefixOf_iff_append] at hp
    obtain ⟨t, ht⟩ := hp
    refine ⟨hay.take i, t, ?_⟩
    rw [List.append_assoc, ht, List.take_append_drop]
  · rintro ⟨u, v, huv⟩
    refine ⟨u.length, ?_, ?_⟩
    · have hlen := congrArg List.length huv
      simp only [List.length_append] at hlen
      rw [List.mem_range]
      omega
    · rw [isPrefixOf_iff_append]
      refine ⟨v, ?_⟩
      rw [List.append_assoc] at huv
      rw [← huv, List.drop_left]

/-- `bytes.Index` with an empty needle returns offset `0`. -/
lemma bytesIndexN_nil (hay : List Nat) : bytesIndexN hay [] = some 0 := by
  unfold bytesIndexN
  rw [List.range_succ_eq_map,
    List.find?_cons_of_pos _ (by rw [isPrefixOf_iff_append]; exact ⟨hay.drop 0, rfl⟩)]

/-- `matchOops` accepts a line exactly when the header occurs in it and no
suppression and no ignore pattern matches it. -/
lemma matchOops_ne_iff (line : List Nat) (o : oops) (ignores : List Regexp) :
    matchOops line o ignores ≠ -1 ↔
      (∃ u v, u ++ o.header ++ v = line) ∧
      (∀ supp ∈ o.suppressions, supp.rmatch line = false) ∧
      (∀ ig ∈ ignores, ig.rmatch line = false) := by
  have hin := bytesIndexN_isSome_iff line o.header
  cases hidx : bytesIndexN line o.header with
  | none =>
    rw [hidx] at hin
    simp only [matchOops, hidx]
    simp only [Option.isSome_none, Bool.false_eq_true, false_iff, not_exists] at hin
    constructor
    · intro h; exact absurd rfl h
    · rintro ⟨⟨u, v, huv⟩, -, -⟩
      exact absurd huv (hin u v)
  | some m =>
    rw [hidx] at hin
    simp only [Option.isSome_some] at hin
    simp only [matchOops, hidx]
    by_cases hs : o.suppressions.any (fun supp => supp.rmatch line) = true
    · rw [if_pos hs]
      constructor
      · intro h; exact absurd rfl h
      · rintro ⟨-, hsup, -⟩
        obtain ⟨x, hx, hxm⟩ := List.any_eq_true.mp hs
        rw [hsup x hx] at hxm
        exact (Bool.false_ne_true hxm).elim
    · rw [if_neg hs]
      by_cases hig : ignores.any (fun ig => ig.rmatch line) = true
      · rw [if_pos hig]
        constructor
        · intro h; exact absurd rfl h
        · rintro ⟨-, -, hign⟩
          obtain ⟨x, hx, hxm⟩ := List.any_eq_true.mp hig
          rw [hign x hx] at hxm
          exact (Bool.false_ne_true hxm).elim
      · rw [if_neg hig]
        have hm : ((m : Nat) : Int) ≠ -1 := by omega
        constructor
        · intro _
          refine ⟨hin.mp trivial, ?_, ?_⟩
          · intro supp hsupp
            cases hb : supp.rmatch line with
            | false => rfl
            | true => exact absurd (List.any_eq_true.mpr ⟨supp, hsupp, hb⟩) hs
          · intro ig hi
            cases hb : ig.rmatch line with
            | false => rfl
            | true => exact absurd (List.any_eq_true.mpr ⟨ig, hi, hb⟩) hig
        · intro _
          exact hm

/-- One-step unfolding of `goLines`. -/
lemma goLines_cons (b : Nat) (rest : List Nat) :
    goLines (b :: rest) = lineOf (b :: rest) :: goLines (restOf (b :: rest)) := by
  rw [goLines]

/-- One-step unfolding of `containsCrash`. -/
lemma containsCrash_cons (b : Nat) (rest : List Nat) (oopses : List oops)
    (ignores : List Regexp) :
    containsCrash (b :: rest) oopses ignores =
      if oopses.any (fun o => matchOops (lineOf (b :: rest)) o ignores != -1) then true
      else containsCrash (restOf (b :: rest)) oopses ignores := by
  rw [containsCrash]

/-- `containsCrash` is the existence of an accepted line/signature pair
(fuel-indexed induction over the scan). -/
lemma containsCrash_iff_exists_aux (oopses : List oops) (ignores : List Regexp) :
    ∀ (n : Nat) (output : List Nat), output.length ≤ n →
      (containsCrash output oopses ignores = true ↔
        ∃ line ∈ goLines output, ∃ o ∈ oopses, matchOops line o ignores ≠ -1) := by
  intro n
  induction n with
  | zero =>
    intro output h
    have hnil : output = [] := List.length_eq_zero.mp (by omega)
    subst hnil
    simp [containsCrash, goLines]
  | succ n ih =>
    intro output h
    cases output with
    | nil => simp [containsCrash, goLines]
    | cons b rest =>
      rw [containsCrash_cons, goLines_cons]
      have hlen : (restOf (b :: rest)).length ≤ n := by
        simp only [restOf, List.length_drop, List.length_cons]
        simp only [List.length_cons] at h
        omega
      by_cases hc : oopses.any (fun o => matchOops (lineOf (b :: rest)) o ignores != -1) = true
      · rw [if_pos hc]
        simp only [true_iff]
        obtain ⟨o, ho, hm⟩ := List.any_eq_true.mp hc
        exact ⟨lineOf (b :: rest), List.mem_cons_self _ _, o, ho, bne_iff_ne.mp hm⟩
      · rw [if_neg hc, ih (restOf (b :: rest)) hlen]
        constructor
        · rintro ⟨line, hline, o, ho, hm⟩
          exact ⟨line, List.mem_cons_of_mem _ hline, o, ho, hm⟩
        · rintro ⟨line, hline, o, ho, hm⟩
          rcases List.mem_cons.mp hline with heq | hmem
          · subst heq
            have hc2 : (oopses.any fun o => matchOops (lineOf (b :: rest)) o ignores != -1) = true :=
              List.any_eq_true.mpr ⟨o, ho, bne_iff_ne.mpr hm⟩
            exact absurd hc2 hc
          · exact ⟨line, hmem, o, ho, hm⟩

/-- `containsCrash` is the existence of an accepted line/signature pair. -/
lemma containsCrash_iff_exists (output : List Nat) (oopses : List oops)
    (ignores : List Regexp) :
    containsCrash output oopses ignores = true ↔
      ∃ line ∈ goLines output, ∃ o ∈ oopses, matchOops line o ignores ≠ -1 :=
  containsCrash_iff_exists_aux oopses ignores output.length output le_rfl

/-- C2: `ContainsCrash` returns true iff some scanned line (split on `'\n'`,
final partial line included) contains some registered signature's header as
a contiguous byte sequence while matching none of that signature's
suppression patterns and none of the caller-supplied ignore patterns; with
no such line/signature it is false. -/
theorem containsCrash_iff_line_matches (output : List Nat) (oopses : List oops)
    (ignores : List Regexp) :
    containsCrash output oopses ignores = true ↔
      ∃ line ∈ goLines output, ∃ o ∈ oopses,
        (∃ u v, u ++ o.header ++ v = line) ∧
        (∀ supp ∈ o.suppressions, supp.rmatch line = false) ∧
        (∀ ig ∈ ignores, ig.rmatch line = false) := by
  rw [containsCrash_iff_exists]
  constructor
  · rintro ⟨line, hl, o, ho, hm⟩
    exact ⟨line, hl, o, ho, (matchOops_ne_iff line o ignores).mp hm⟩
  · rintro ⟨line, hl, o, ho, hc⟩
    exact ⟨line, hl, o, ho, (matchOops_ne_iff line o ignores).mpr hc⟩

/-- A signature with empty header and no suppressions, for concrete runs. -/
def c10oops : oops :=
  ⟨[], [], []⟩

/-- C10: a registered signature with an empty header and no suppressions
makes `matchOops` accept (at offset 0) every line none of whose ignore
patterns match, and makes `containsCrash` true on every non-empty buffer
whose lines are not ignored; on the empty buffer `containsCrash` is false. -/
theorem matchOops_empty_header_accepts (o : oops) (oopses : List oops)
    (ignores : List Regexp) (output : List Nat)
    (hh : o.header = []) (hs : o.suppressions = []) (ho : o ∈ oopses) :
    (∀ line, (∀ ig ∈ ignores, ig.rmatch line = false) → matchOops line o ignores = 0) ∧
    ((∀ line ∈ goLines output, ∀ ig ∈ ignores, ig.rmatch line = false) → output ≠ [] →
      containsCrash output oopses ignores = true) ∧
    containsCrash [] oopses ignores = false := by
  have hmo : ∀ line, (∀ ig ∈ ignores, ig.rmatch line = false) →
      matchOops line o ignores = 0 := by
    intro line higl
    have hany : (ignores.any fun ig => ig.rmatch line) = false := by
      rw [List.any_eq_false]
      intro x hx
      rw [higl x hx]
      simp
    simp [matchOops, hh, bytesIndexN_nil, hs, hany]
  refine ⟨hmo, ?_, by simp [containsCrash]⟩
  intro hig hne
  rw [containsCrash_iff_exists]
  cases output with
  | nil => exact absurd rfl hne
  | cons b rest =>
    have hmem : lineOf (b :: rest) ∈ goLines (b :: rest) := by
      rw [goLines_cons]
      exact List.mem_cons_self _ _
    refine ⟨lineOf (b :: rest), hmem, o, ho, ?_⟩
    rw [hmo (lineOf (b :: rest)) (fun ig hi => hig _ hmem ig hi)]
    decide

/-- Witness for C10 at the empty-header signature and the buffer `[5]`. -/
theorem matchOops_empty_header_accepts_witness :
    matchOops [5] c10oops [] = 0 ∧ containsCrash [5] [c10oops] [] = true ∧
      containsCrash [] [c10oops] [] = false := by
  have h := matchOops_empty_header_accepts c10oops [c10oops] [] [5] rfl rfl
    (List.mem_singleton.mpr rfl)
  exact ⟨h.1 [5] (fun ig hi => absurd hi (List.not_mem_nil ig)),
    h.2.1 (fun line hl ig hi => absurd hi (List.not_mem_nil ig)) (by decide),
    h.2.2⟩

/-! ## The format-selection loop of `extractDescription` -/

/-- The match start offset (`match[0]`) of a format's title pattern. -/
def fmtStart (output : List Nat) (f : oopsFormat) : Option Nat :=
  (f.title.findSubmatchIdx output).map ReMatch.s

/-- The start offsets of all formats whose title pattern matches. -/
def matchingStarts (output : List Nat) (fs : List oopsFormat) : List Nat :=
  fs.filterMap (fmtStart output)

/-- Minimum of a list of naturals (`none` on the empty list). -/
def listMin : List Nat → Option Nat
  | [] => none
  | x :: xs =>
    match listMin xs with
    | none => some x
    | some m => some (min x m)

/-- `listMin` never fails on a non-empty list. -/
lemma listMin_ne_none (x : Nat) (xs : List Nat) : listMin (x :: xs) ≠ none := by
  simp only [listMin]
  cases listMin xs <;> simp

/-- `listMin` returns a member that bounds the list from below. -/
lemma listMin_spec : ∀ (xs : List Nat) (m : Nat), listMin xs = some m →
    m ∈ xs ∧ ∀ y ∈ xs, m ≤ y := by
  intro xs
  induction xs with
  | nil => intro m h; simp [listMin] at h
  | cons x xs ih =>
    intro m h
    simp only [listMin] at h
    cases hxs : listMin xs with
    | none =>
      rw [hxs] at h
      injection h with h
      subst h
      have hnil : xs = [] := by
        cases xs with
        | nil => rfl
        | cons a as => exact absurd hxs (listMin_ne_none a as)
      subst hnil
      simp
    | some mm =>
      rw [hxs] at h
      injection h with h
      subst h
      obtain ⟨hmem, hbd⟩ := ih mm hxs
      constructor
      · rcases le_total x mm with hle | hle
        · rw [min_eq_left hle]
          exact List.mem_cons_self _ _
        · rw [min_eq_right hle]
          exact List.mem_cons_of_mem _ hmem
      · intro y hy
        rcases List.mem_cons.mp hy with rfl | hy
        · exact min_le_left _ _
        · exact le_trans (min_le_right _ _) (hbd y hy)

/-- A member that bounds the list from below is the `listMin`. -/
lemma listMin_eq_some_of (xs : List Nat) (m : Nat) (hmem : m ∈ xs)
    (hbd : ∀ y ∈ xs, m ≤ y) : listMin xs = some m := by
  cases xs with
  | nil => exact absurd hmem (List.not_mem_nil m)
  | cons a as =>
    cases hxs : listMin (a :: as) with
    | none => exact absurd hxs (listMin_ne_none a as)
    | some mm =>
      obtain ⟨hmem2, hbd2⟩ := listMin_spec _ _ hxs
      rw [le_antisymm (hbd2 m hmem) (hbd mm hmem2)]

/-- If no element is below the threshold, all elements are at least it. -/
lemma listMin_none_forall (xs : List Nat) (n : Nat)
    (h : listMin (xs.filter (fun x => decide (x < n))) = none) : ∀ x ∈ xs, n ≤ x := by
  intro x hx
  by_contra hlt
  push_neg at hlt
  have hmem : x ∈ xs.filter (fun x => decide (x < n)) :=
    List.mem_filter.mpr ⟨hx, by simpa using hlt⟩
  cases hfe : xs.filter (fun x => decide (x < n)) with
  | nil =>
    rw [hfe] at hmem
    exact absurd hmem (List.not_mem_nil x)
  | cons a as =>
    rw [hfe] at h
    exact absurd h (listMin_ne_none a as)

/-- Head below every tail element is the minimum of the cons. -/
lemma listMin_cons_self (a : Nat) (xs : List Nat)
    (h : ∀ x ∈ xs, a ≤ x) : listMin (a :: xs) = some a := by
  apply listMin_eq_some_of
  · exact List.mem_cons_self a xs
  · intro y hy
    rcases List.mem_cons.mp hy with rfl | hy
    · exact le_rfl
    · exact h y hy

/-- A tail element strictly below the head and below every other sub-head
element is the minimum of the cons. -/
lemma listMin_cons_tail (a m2 : Nat) (xs : List Nat)
    (hmem : m2 ∈ xs) (hlt : m2 < a)
    (hbd : ∀ x ∈ xs, x < a → m2 ≤ x) : listMin (a :: xs) = some m2 := by
  apply listMin_eq_some_of
  · exact List.mem_cons_of_mem _ hmem
  · intro y hy
    rcases List.mem_cons.mp hy with rfl | hy
    · omega
    · by_cases hya : y < a
      · exact hbd y hy hya
      · omega

/-- A member of `matchingStarts` has a first format achieving it, and that
format's title pattern matches at that offset. -/
lemma exists_first_format (output : List Nat) (fs : List oopsFormat) (m2 : Nat)
    (h : m2 ∈ matchingStarts output fs) :
    ∃ g2 mm2, fs.find? (fun f => fmtStart output f == some m2) = some g2 ∧
      g2.title.findSubmatchIdx output = some mm2 ∧ mm2.s = m2 := by
  have hsome : (fs.find? (fun f => fmtStart output f == some m2)).isSome = true := by
    rw [List.find?_isSome]
    obtain ⟨f2, hf2mem, hf2eq⟩ := List.mem_filterMap.mp h
    exact ⟨f2, hf2mem, by simp [hf2eq]⟩
  obtain ⟨g2, hg2⟩ := Option.isSome_iff_exists.mp hsome
  have hpred := List.find?_some hg2
  have hg2start : fmtStart output g2 = some m2 := by
    simpa using hpred
  cases hgg : g2.title.findSubmatchIdx output with
  | none =>
    simp only [fmtStart, hgg, Option.map_none'] at hg2start
    exact absurd hg2start (by simp)
  | some z =>
    simp only [fmtStart, hgg, Option.map_some'] at hg2start
    injection hg2start with hz
    exact ⟨g2, z, hg2, hgg, hz⟩

/-- From a winner state at offset `n`, formats matching at `n` or later never
override the current winner. -/
lemma edLoop_skip (output : List Nat) :
    ∀ (fs : List oopsFormat) (n : Nat) (d r : List Nat) (f0 : oopsFormat),
      (∀ x ∈ matchingStarts output fs, n ≤ x) →
      edLoop output ⟨(n : Int), d, r, some f0⟩ fs = ⟨(n : Int), d, r, some f0⟩ := by
  intro fs
  induction fs with
  | nil =>
    intro n d r f0 _
    rfl
  | cons f fs ih =>
    intro n d r f0 h
    simp only [edLoop]
    cases hf : f.title.findSubmatchIdx output with
    | none =>
      have hms : matchingStarts output (f :: fs) = matchingStarts output fs := by
        simp [matchingStarts, List.filterMap_cons, fmtStart, hf]
      rw [hms] at h
      simp only [edStep, hf]
      exact ih n d r f0 h
    | some mf =>
      have hfs : fmtStart output f = some mf.s := by simp [fmtStart, hf]
      have hms : matchingStarts output (f :: fs) = mf.s :: matchingStarts output fs := by
        simp [matchingStarts, List.filterMap_cons, hfs]
      rw [hms] at h
      have hle : n ≤ mf.s := h mf.s (List.mem_cons_self _ _)
      simp only [edStep, hf]
      rw [if_pos ⟨by omega, by exact_mod_cast hle⟩]
      exact ih n d r f0 (fun x hx => h x (List.mem_cons_of_mem _ hx))

/-- From a winner state at offset `n`, the loop ends at the smallest matching
offset below `n`, won by the first format achieving it. -/
lemma edLoop_min (output : List Nat) :
    ∀ (fs : List oopsFormat) (n m : Nat) (d r : List Nat) (f0 g : oopsFormat) (mm : ReMatch),
      listMin ((matchingStarts output fs).filter (fun x => decide (x < n))) = some m →
      fs.find? (fun f => fmtStart output f == some m) = some g →
      g.title.findSubmatchIdx output = some mm →
      edLoop output ⟨(n : Int), d, r, some f0⟩ fs =
        ⟨(m : Int), sprintf g.fmt (renderArgs output mm.groups), output.drop m, some g⟩ := by
  intro fs
  induction fs with
  | nil =>
    intro n m d r f0 g mm h1 _ _
    simp [matchingStarts, listMin] at h1
  | cons f fs ih =>
    intro n m d r f0 g mm h1 h2 h3
    simp only [edLoop]
    cases hf : f.title.findSubmatchIdx output with
    | none =>
      have hfs : fmtStart output f = none := by simp [fmtStart, hf]
      have hms : matchingStarts output (f :: fs) = matchingStarts output fs := by
        simp [matchingStarts, List.filterMap_cons, hfs]
      rw [hms] at h1
      rw [List.find?_cons_of_neg _ (by simp [hfs])] at h2
      simp only [edStep, hf]
      exact ih n m d r f0 g mm h1 h2 h3
    | some mf =>
      have hfs : fmtStart output f = some mf.s := by simp [fmtStart, hf]
      have hms : matchingStarts output (f :: fs) = mf.s :: matchingStarts output fs := by
        simp [matchingStarts, List.filterMap_cons, hfs]
      rw [hms] at h1
      by_cases hlt : mf.s < n
      · -- the loop accepts `f`, then continues with threshold `mf.s`
        simp only [edStep, hf]
        rw [if_neg (by
          rintro ⟨-, hc⟩
          have : (mf.s : Int) < (n : Int) := by exact_mod_cast hlt
          omega)]
        rw [List.filter_cons_of_pos (by simpa using hlt)] at h1
        cases hrec : listMin ((matchingStarts output fs).filter (fun x => decide (x < mf.s))) with
        | none =>
          have hall : ∀ x ∈ matchingStarts output fs, mf.s ≤ x :=
            listMin_none_forall _ _ hrec
          have hm : listMin (mf.s :: (matchingStarts output fs).filter
              (fun x => decide (x < n))) = some mf.s :=
            listMin_cons_self _ _ (fun x hx => hall x (List.mem_filter.mp hx).1)
          rw [hm] at h1
          injection h1 with h1
          subst h1
          rw [List.find?_cons_of_pos _ (by simp [hfs])] at h2
          injection h2 with h2
          subst h2
          rw [hf] at h3
          injection h3 with h3
          subst h3
          exact edLoop_skip output fs mf.s _ _ f hall
        | some m2 =>
          obtain ⟨hm2memf, hm2bd⟩ := listMin_spec _ _ hrec
          have hm2starts : m2 ∈ matchingStarts output fs := (List.mem_filter.mp hm2memf).1
          have hm2lt : m2 < mf.s := of_decide_eq_true (List.mem_filter.mp hm2memf).2
          obtain ⟨g2, mm2, hg2find, hg2match, hg2s⟩ :=
            exists_first_format output fs m2 hm2starts
          have hm : listMin (mf.s :: (matchingStarts output fs).filter
              (fun x => decide (x < n))) = some m2 := by
            apply listMin_cons_tail
            · exact List.mem_filter.mpr ⟨hm2starts, by simp; omega⟩
            · exact hm2lt
            · intro x hx hxlt
              exact hm2bd x (List.mem_filter.mpr ⟨(List.mem_filter.mp hx).1, by simpa using hxlt⟩)
          rw [hm] at h1
          injection h1 with h1
          subst h1
          rw [List.find?_cons_of_neg _ (by simp [hfs]; omega)] at h2
          rw [hg2find] at h2
          injection h2 with h2
          subst h2
          rw [hg2match] at h3
          injection h3 with h3
          subst h3
          exact ih mf.s m2 _ _ f g2 mm2 hrec hg2find hg2match
      · -- the loop skips `f` (its start is not strictly earlier)
        have hnle : n ≤ mf.s := by omega
        rw [List.filter_cons_of_neg (by simpa using hlt)] at h1
        have hmlt : m < n := by
          obtain ⟨hmem, -⟩ := listMin_spec _ _ h1
          exact of_decide_eq_true (List.mem_filter.mp hmem).2
        rw [List.find?_cons_of_neg _ (by simp [hfs]; omega)] at h2
        simp only [edStep, hf]
        rw [if_pos ⟨by omega, by exact_mod_cast hnle⟩]
        exact ih n m d r f0 g mm h1 h2 h3

/-- From the initial state (`startPos = -1`), the loop ends at the smallest
matching offset, won by the first format achieving it. -/
lemma edLoop_init_spec (output : List Nat) :
    ∀ (fs : List oopsFormat) (m : Nat) (g : oopsFormat) (mm : ReMatch),
      listMin (matchingStarts output fs) = some m →
      fs.find? (fun f => fmtStart output f == some m) = some g →
      g.title.findSubmatchIdx output = some mm →
      edLoop output edInit fs =
        ⟨(m : Int), sprintf g.fmt (renderArgs output mm.groups), output.drop m, some g⟩ := by
  intro fs
  induction fs with
  | nil =>
    intro m g mm h1 _ _
    simp [matchingStarts, listMin] at h1
  | cons f fs ih =>
    intro m g mm h1 h2 h3
    simp only [edLoop]
    cases hf : f.title.findSubmatchIdx output with
    | none =>
      have hfs : fmtStart output f = none := by simp [fmtStart, hf]
      have hms : matchingStarts output (f :: fs) = matchingStarts output fs := by
        simp [matchingStarts, List.filterMap_cons, hfs]
      rw [hms] at h1
      rw [List.find?_cons_of_neg _ (by simp [hfs])] at h2
      simp only [edStep, hf]
      exact ih m g mm h1 h2 h3
    | some mf =>
      have hfs : fmtStart output f = some mf.s := by simp [fmtStart, hf]
      have hms : matchingStarts output (f :: fs) = mf.s :: matchingStarts output fs := by
        simp [matchingStarts, List.filterMap_cons, hfs]
      rw [hms] at h1
      -- the first matching format is always accepted from the initial state
      simp only [edStep, hf, edInit]
      rw [if_neg (fun hc => hc.1 rfl)]
      cases hrec : listMin ((matchingStarts output fs).filter (fun x => decide (x < mf.s))) with
      | none =>
        have hall : ∀ x ∈ matchingStarts output fs, mf.s ≤ x :=
          listMin_none_forall _ _ hrec
        have hm : listMin (mf.s :: matchingStarts output fs) = some mf.s :=
          listMin_cons_self _ _ hall
        rw [hm] at h1
        injection h1 with h1
        subst h1
        rw [List.find?_cons_of_pos _ (by simp [hfs])] at h2
        injection h2 with h2
        subst h2
        rw [hf] at h3
        injection h3 with h3
        subst h3
        exact edLoop_skip output fs mf.s _ _ f hall
      | some m2 =>
        obtain ⟨hm2memf, hm2bd⟩ := listMin_spec _ _ hrec
        have hm2starts : m2 ∈ matchingStarts output fs := (List.mem_filter.mp hm2memf).1
        have hm2lt : m2 < mf.s := of_decide_eq_true (List.mem_filter.mp hm2memf).2
        obtain ⟨g2, mm2, hg2find, hg2match, hg2s⟩ :=
          exists_first_format output fs m2 hm2starts
        have hm : listMin (mf.s :: matchingStarts output fs) = some m2 := by
          apply listMin_cons_tail
          · exact hm2starts
          · exact hm2lt
          · intro x hx hxlt
            exact hm2bd x (List.mem_filter.mpr ⟨hx, by simpa using hxlt⟩)
        rw [hm] at h1
        injection h1 with h1
        subst h1
        rw [List.find?_cons_of_neg _ (by simp [hfs]; omega)] at h2
        rw [hg2find] at h2
        injection h2 with h2
        subst h2
        rw [hg2match] at h3
        injection h3 with h3
        subst h3
        exact edLoop_min output fs mf.s m2 _ _ f g2 mm2 hrec hg2find hg2match

/-- A non-empty rendered title is returned as is by `rawDesc`. -/
lemma rawDesc_of_desc_ne (output : List Nat) (o : oops)
    (st : EDState) (hst : edLoop output edInit o.formats = st) (hne : st.desc ≠ []) :
    rawDesc output o = some (st.desc, st.report, st.format) := by
  simp only [rawDesc, hst]
  rw [if_neg hne]

/-- C1: among all formats whose title pattern matches, `extractDescription`
selects the one with the smallest match start offset; on a tie the format
first in iteration order wins (a later format overrides only when its start
is strictly smaller), and the winner's report is the suffix of the output
from that smallest offset.  Here `m` is the smallest matching offset, `g`
the first format matching at `m`, and `mm` its match. -/
theorem extractDescription_earliest_offset_wins (output : List Nat) (o : oops)
    (m : Nat) (g : oopsFormat) (mm : ReMatch)
    (h1 : listMin (matchingStarts output o.formats) = some m)
    (h2 : o.formats.find? (fun f => fmtStart output f == some m) = some g)
    (h3 : g.title.findSubmatchIdx output = some mm) :
    edLoop output edInit o.formats =
      ⟨(m : Int), sprintf g.fmt (renderArgs output mm.groups), output.drop m, some g⟩ ∧
    (sprintf g.fmt (renderArgs output mm.groups) ≠ [] →
      extractDescription output o =
        some (postTitle (sprintf g.fmt (renderArgs output mm.groups)),
          output.drop m, some g)) := by
  have hloop := edLoop_init_spec output o.formats m g mm h1 h2 h3
  refine ⟨hloop, fun hne => ?_⟩
  have hraw := rawDesc_of_desc_ne output o _ hloop hne
  simp only [extractDescription, hraw]

/-- A format matching the literal byte `2` (at offset 2 of `c1out`). -/
def c1fmtA : oopsFormat :=
  ⟨litRe [2], none, [65], false, false⟩

/-- A format matching the literal bytes `[1, 2]` (at offset 1 of `c1out`). -/
def c1fmtB : oopsFormat :=
  ⟨litRe [1, 2], none, [66], false, false⟩

/-- A signature whose second format matches strictly earlier than its first. -/
def c1oops : oops :=
  ⟨[0], [c1fmtA, c1fmtB], []⟩

/-- Concrete output for the C1 witness. -/
def c1out : List Nat :=
  [0, 1, 2]

/-- Witness for C1: format B (later in order) matches at offset 1, format A
at offset 2, so B wins. -/
theorem extractDescription_earliest_offset_wins_witness :
    edLoop c1out edInit c1oops.formats =
      ⟨(1 : Int), sprintf c1fmtB.fmt (renderArgs c1out []), c1out.drop 1, some c1fmtB⟩ ∧
    (sprintf c1fmtB.fmt (renderArgs c1out []) ≠ [] →
      extractDescription c1out c1oops =
        some (postTitle (sprintf c1fmtB.fmt (renderArgs c1out [])),
          c1out.drop 1, some c1fmtB)) :=
  extractDescription_earliest_offset_wins c1out c1oops 1 c1fmtB ⟨1, 3, []⟩
    (by decide) rfl rfl

/-- A loop over formats none of which matches leaves the state unchanged. -/
lemma edLoop_all_none (output : List Nat) :
    ∀ (fs : List oopsFormat) (st : EDState),
      (∀ f ∈ fs, f.title.findSubmatchIdx output = none) →
      edLoop output st fs = st := by
  intro fs
  induction fs with
  | nil =>
    intro st _
    rfl
  | cons f fs ih =>
    intro st h
    simp only [edLoop]
    have hf := h f (List.mem_cons_self _ _)
    simp only [edStep, hf]
    exact ih st (fun f2 hf2 => h f2 (List.mem_cons_of_mem _ hf2))

/-- C3: when no format's title pattern matches, `extractDescription` falls
back to the header line: if the header occurs at `p`, the pre-postprocessing
title is the bytes from `p` up to the next newline (or end of buffer) and
the report is the suffix from `p`; if the header does not occur, the
function panics (modelled as `none`) instead of returning a result. -/
theorem extractDescription_fallback_header_line (output : List Nat) (o : oops)
    (hnone : ∀ f ∈ o.formats, f.title.findSubmatchIdx output = none) :
    (∀ p, bytesIndexN output o.header = some p →
      rawDesc output o =
        some (goSlice output p (lineEnd output p), output.drop p, none) ∧
      extractDescription output o =
        some (postTitle (goSlice output p (lineEnd output p)), output.drop p, none)) ∧
    (bytesIndexN output o.header = none → extractDescription output o = none) := by
  have hloop := edLoop_all_none output o.formats edInit hnone
  constructor
  · intro p hp
    have hraw : rawDesc output o =
        some (goSlice output p (lineEnd output p), output.drop p, none) := by
      simp only [rawDesc]
      rw [hloop, if_pos (show edInit.desc = [] from rfl), hp]
      rfl
    exact ⟨hraw, by simp only [extractDescription, hraw]⟩
  · intro hp
    simp only [extractDescription, rawDesc]
    rw [hloop, if_pos (show edInit.desc = [] from rfl), hp]

/-- A signature with header `[72, 68]` and no formats. -/
def c3oops : oops :=
  ⟨[72, 68], [], []⟩

/-- Concrete output for the C3 witness, header at offset 1, newline at 4. -/
def c3out : List Nat :=
  [97, 72, 68, 33, 10, 98]

/-- Witness for C3 at a buffer whose header occurs at offset 1. -/
theorem extractDescription_fallback_header_line_witness :
    rawDesc c3out c3oops =
      some (goSlice c3out 1 (lineEnd c3out 1), c3out.drop 1, none) ∧
    extractDescription c3out c3oops =
      some (postTitle (goSlice c3out 1 (lineEnd c3out 1)), c3out.drop 1, none) :=
  (extractDescription_fallback_header_line c3out c3oops
    (by simp [c3oops])).1 1 rfl

/-- C9: the header-line fallback of `extractDescription` is taken exactly
when the loop's rendered title is empty — even when some format did match
(the winning format record is still returned); when the rendered title is
non-empty, the loop's title, report and format are returned. -/
theorem extract_fallback_iff_empty_title (output : List Nat) (o : oops) (p : Nat) :
    ((edLoop output edInit o.formats).desc = [] →
      bytesIndexN output o.header = some p →
      extractDescription output o =
        some (postTitle (goSlice output p (lineEnd output p)), output.drop p,
          (edLoop output edInit o.formats).format)) ∧
    ((edLoop output edInit o.formats).desc ≠ [] →
      extractDescription output o =
        some (postTitle (edLoop output edInit o.formats).desc,
          (edLoop output edInit o.formats).report,
          (edLoop output edInit o.formats).format)) := by
  constructor
  · intro hd hp
    have hraw : rawDesc output o =
        some (goSlice output p (lineEnd output p), output.drop p,
          (edLoop output edInit o.formats).format) := by
      simp only [rawDesc]
      rw [if_pos hd, hp]
    simp only [extractDescription, hraw]
  · intro hd
    have hraw : rawDesc output o =
        some ((edLoop output edInit o.formats).desc,
          (edLoop output edInit o.formats).report,
          (edLoop output edInit o.formats).format) := by
      simp only [rawDesc]
      rw [if_neg hd]
    simp only [extractDescription, hraw]

/-- A format with an empty template, matching the literal byte `88`. -/
def c9fmt : oopsFormat :=
  ⟨litRe [88], none, [], false, false⟩

/-- A signature whose only format renders an empty title. -/
def c9oops : oops :=
  ⟨[72, 68], [c9fmt], []⟩

/-- Concrete output for the C9 witness: the format matches at 4, the header
occurs at 1. -/
def c9out : List Nat :=
  [97, 72, 68, 98, 88, 99]

/-- Witness for C9: the format matches but renders an empty title, so the
fallback title and report are returned while the format record is kept. -/
theorem extract_fallback_iff_empty_title_witness :
    extractDescription c9out c9oops =
      some (postTitle (goSlice c9out 1 (lineEnd c9out 1)), c9out.drop 1,
        (edLoop c9out edInit c9oops.formats).format) :=
  (extract_fallback_iff_empty_title c9out c9oops 1).1 rfl rfl

/-! ## Post-processing invariants of the title -/

/-- The post-processed title never exceeds 180 bytes. -/
lemma postTitle_length_le (d : List Nat) : (postTitle d).length ≤ 180 := by
  unfold postTitle truncate180
  by_cases h : 180 < (crStrip d).length
  · rw [if_pos h, List.length_take]
    omega
  · rw [if_neg h]
    omega

/-- A pre-postprocessing title longer than 180 bytes is truncated to
exactly 180 bytes. -/
lemma postTitle_length_eq_of_gt (d : List Nat) (h : 180 < d.length) :
    (postTitle d).length = 180 := by
  have hcr : 180 ≤ (crStrip d).length := by
    unfold crStrip
    by_cases hc : d ≠ [] ∧ d.getLast? = some 13
    · rw [if_pos hc, List.length_dropLast]
      omega
    · rw [if_neg hc]
      omega
  unfold postTitle truncate180
  by_cases h2 : 180 < (crStrip d).length
  · rw [if_pos h2, List.length_take]
    omega
  · rw [if_neg h2]
    omega

/-- C7: every title returned by `extractDescription` is at most 180 bytes
long, and when the pre-postprocessing (rendered or fallback) title exceeds
180 bytes the returned title is exactly 180 bytes. -/
theorem extract_title_length_bound (output : List Nat) (o : oops)
    (d r : List Nat) (f : Option oopsFormat)
    (h : extractDescription output o = some (d, r, f)) :
    d.length ≤ 180 ∧
    (∀ d0 r0 f0, rawDesc output o = some (d0, r0, f0) → 180 < d0.length →
      d.length = 180) := by
  cases hraw : rawDesc output o with
  | none =>
    rw [extractDescription.eq_def, hraw] at h
    exact absurd h (by simp)
  | some t =>
    obtain ⟨d0, r0, f0⟩ := t
    rw [extractDescription.eq_def, hraw] at h
    simp only [Option.some.injEq, Prod.mk.injEq] at h
    obtain ⟨hd, -, -⟩ := h
    subst hd
    constructor
    · exact postTitle_length_le d0
    · intro d1 r1 f1 hraw2 hlen
      simp only [Option.some.injEq, Prod.mk.injEq] at hraw2
      rw [← hraw2.1] at hlen
      exact postTitle_length_eq_of_gt d0 hlen

/-- A header-at-offset-0 signature producing a 201-byte fallback line. -/
def c7oops : oops :=
  ⟨[72], [], []⟩

/-- A 201-byte output with no newline, for the C7 witness. -/
def c7out : List Nat :=
  72 :: List.replicate 200 97

/-- Witness for C7 on a 201-byte fallback title, truncated to 180 bytes. -/
theorem extract_title_length_bound_witness :
    extractDescription c7out c7oops = some (c7out.take 180, c7out, none) ∧
    (c7out.take 180).length ≤ 180 ∧ (c7out.take 180).length = 180 := by
  have h := extract_title_length_bound c7out c7oops (c7out.take 180) c7out none rfl
  exact ⟨rfl, h.1, h.2 c7out c7out none rfl (by decide)⟩

/-- A signature whose fallback line ends in two carriage returns. -/
def c6crOops : oops :=
  ⟨[72, 68, 82], [], []⟩

/-- The buffer `HDR\r\r`, whose extracted title ends in `'\r'`. -/
def c6crOut : List Nat :=
  [72, 68, 82, 13, 13]

/-- C6 counterexample: on the buffer `HDR\r\r` with header `HDR`, the title
returned by `extractDescription` is `HDR\r` — it ends with a carriage
return, because the post-processing strips only one trailing CR. -/
theorem extract_title_trailing_cr_cex :
    extractDescription c6crOut c6crOops =
      some ([72, 68, 82, 13], [72, 68, 82, 13, 13], none) ∧
    ([72, 68, 82, 13] : List Nat).getLast? = some 13 :=
  ⟨rfl, rfl⟩

/-- C6 amended: the title returned by `extractDescription` does not end with
a carriage return, provided the pre-postprocessing title does not end with
two carriage returns and its CR-stripped form has no carriage return at
byte index 179 (the truncation point). -/
theorem extract_title_no_trailing_cr (output : List Nat) (o : oops)
    (d r : List Nat) (f : Option oopsFormat) (d0 r0 : List Nat) (f0 : Option oopsFormat)
    (h0 : rawDesc output o = some (d0, r0, f0))
    (h : extractDescription output o = some (d, r, f))
    (h1 : ¬(d0.getLast? = some 13 ∧ d0.dropLast.getLast? = some 13))
    (h2 : (crStrip d0)[179]? ≠ some 13) :
    d.getLast? ≠ some 13 := by
  rw [extractDescription.eq_def, h0] at h
  simp only [Option.some.injEq, Prod.mk.injEq] at h
  obtain ⟨hd, -, -⟩ := h
  subst hd
  have hcr : (crStrip d0).getLast? ≠ some 13 := by
    unfold crStrip
    by_cases hc : d0 ≠ [] ∧ d0.getLast? = some 13
    · rw [if_pos hc]
      intro hlast
      exact h1 ⟨hc.2, hlast⟩
    · rw [if_neg hc]
      intro hlast
      refine hc ⟨?_, hlast⟩
      intro hnil
      rw [hnil] at hlast
      exact absurd hlast (by simp)
  unfold postTitle truncate180
  by_cases ht : 180 < (crStrip d0).length
  · rw [if_pos ht]
    intro hlast
    have hlen : ((crStrip d0).take 180).length = 180 := by
      rw [List.length_take]
      omega
    rw [List.getLast?_eq_getElem?, hlen, List.getElem?_take, if_pos (by omega)] at hlast
    have h179 : (180 : Nat) - 1 = 179 := rfl
    rw [h179] at hlast
    exact h2 hlast
  · rw [if_neg ht]
    exact hcr

/-- A signature and buffer whose title is plain `HDR`, for the C6 witness. -/
def c6okOut : List Nat :=
  [72, 68, 82]

/-- Witness for the amended C6 at the buffer `HDR` with header `HDR`. -/
theorem extract_title_no_trailing_cr_witness :
    extractDescription c6okOut c6crOops = some ([72, 68, 82], [72, 68, 82], none) ∧
    ([72, 68, 82] : List Nat).getLast? ≠ some 13 :=
  ⟨rfl, extract_title_no_trailing_cr c6okOut c6crOops [72, 68, 82] [72, 68, 82] none
    [72, 68, 82] [72, 68, 82] none rfl rfl (by decide) (by decide)⟩
